import Mathlib

/-!
# SyncroSpace — verification of the specification against the source

A shallow embedding of the SyncroSpace meeting application:

* the administrative meeting actions (`endMeetingForAllUsers`,
  `deleteMeetingCompletely`, `removeAttendeeFromMeeting`) over a model of the
  Firestore document database (`meetings`, `spaces`, `users` collections as
  association lists keyed by document id);
* the WebRTC mesh room manager (`WebRTCMeshManager`): participant join/leave
  handling, offer/answer signaling, ICE candidate records, and teardown;
* the call-join fallback flow (`startOrJoinCall`) and the avatar keyboard
  movement handler (`handleKeyDown` / `isPositionValid`).

Firestore collections are modelled as association lists of
`(documentId, document)`; `updateDoc` only rewrites an existing document,
`setDoc`-style map insertion appends, and `deleteDoc` removes the entry.
Server timestamps carry no information used by any property and are omitted
from the document models.
-/

namespace SyncroSpace

/-! ## Association-list primitives for Firestore collections and JS Maps -/

/-- Look up the document stored under key `k` (first match). -/
def lookupKey {α : Type} (k : String) : List (String × α) → Option α
  | [] => none
  | (k2, v) :: rest => if k2 = k then some v else lookupKey k rest

/-- `updateDoc`: rewrite the document under `k` if it exists, leave the
collection unchanged otherwise. -/
def updateEntry {α : Type} (l : List (String × α)) (k : String) (v : α) :
    List (String × α) :=
  l.map (fun kv => if kv.1 = k then (k, v) else kv)

/-- Whether a document exists under key `k`. -/
def hasKey {α : Type} (k : String) (l : List (String × α)) : Bool :=
  (lookupKey k l).isSome

/-- JS `Map.set` / Firestore set: overwrite in place when the key exists,
append at the end otherwise (insertion order is preserved). -/
def setEntry {α : Type} (l : List (String × α)) (k : String) (v : α) :
    List (String × α) :=
  if hasKey k l then updateEntry l k v else l ++ [(k, v)]

/-- `deleteDoc` / JS `Map.delete`: remove the entry under `k`. -/
def eraseKey {α : Type} (l : List (String × α)) (k : String) :
    List (String × α) :=
  l.filter (fun kv => kv.1 ≠ k)

/-- The keys of a collection, in order. -/
def keysOf {α : Type} (l : List (String × α)) : List String :=
  l.map Prod.fst

theorem lookupKey_eq_none {α : Type} (k : String) (l : List (String × α)) :
    lookupKey k l = none ↔ k ∉ keysOf l := by
  induction l with
  | nil => simp [lookupKey, keysOf]
  | cons kv rest ih =>
    obtain ⟨k2, v⟩ := kv
    by_cases hk : k2 = k
    · subst hk
      simp [lookupKey, keysOf]
    · simp [lookupKey, keysOf, hk, Ne.symm hk] at ih ⊢
      exact ih

theorem lookupKey_isSome {α : Type} (k : String) (l : List (String × α)) :
    (lookupKey k l).isSome ↔ k ∈ keysOf l := by
  constructor
  · intro h
    by_contra hk
    rw [(lookupKey_eq_none k l).2 hk] at h
    simp at h
  · intro h
    cases hl : lookupKey k l with
    | some v => simp
    | none => exact absurd h (by simpa using (lookupKey_eq_none k l).1 hl)

theorem lookupKey_mem {α : Type} {k : String} {l : List (String × α)} {v : α}
    (h : lookupKey k l = some v) : (k, v) ∈ l := by
  induction l with
  | nil => simp [lookupKey] at h
  | cons kv rest ih =>
    obtain ⟨k2, v2⟩ := kv
    by_cases hk : k2 = k
    · subst hk
      simp [lookupKey] at h
      subst h
      exact List.mem_cons_self _ _
    · simp [lookupKey, hk] at h
      exact List.mem_cons_of_mem _ (ih h)

theorem lookupKey_cons {α : Type} (k k2 : String) (v : α)
    (rest : List (String × α)) :
    lookupKey k ((k2, v) :: rest) =
      if k2 = k then some v else lookupKey k rest := rfl

theorem updateEntry_cons {α : Type} (k k2 : String) (v v2 : α)
    (rest : List (String × α)) :
    updateEntry ((k2, v2) :: rest) k v =
      (if k2 = k then (k, v) else (k2, v2)) :: updateEntry rest k v := rfl

theorem lookupKey_updateEntry {α : Type} (l : List (String × α)) (k : String)
    (v : α) :
    lookupKey k (updateEntry l k v) = (lookupKey k l).map (fun _ => v) := by
  induction l with
  | nil => simp [lookupKey, updateEntry]
  | cons kv rest ih =>
    obtain ⟨k2, v2⟩ := kv
    by_cases hk : k2 = k
    · rw [updateEntry_cons, if_pos hk, lookupKey_cons, if_pos rfl,
        lookupKey_cons, if_pos hk]
      rfl
    · rw [updateEntry_cons, if_neg hk, lookupKey_cons, if_neg hk,
        lookupKey_cons, if_neg hk, ih]

theorem lookupKey_updateEntry_self {α : Type} {l : List (String × α)}
    {k : String} {u : α} (h : lookupKey k l = some u) (v : α) :
    lookupKey k (updateEntry l k v) = some v := by
  rw [lookupKey_updateEntry, h, Option.map_some']

theorem lookupKey_updateEntry_ne {α : Type} (l : List (String × α))
    {q k : String} (hqk : q ≠ k) (v : α) :
    lookupKey q (updateEntry l k v) = lookupKey q l := by
  induction l with
  | nil => simp [lookupKey, updateEntry]
  | cons kv rest ih =>
    obtain ⟨k2, v2⟩ := kv
    by_cases hk : k2 = k
    · subst hk
      rw [updateEntry_cons, if_pos rfl, lookupKey_cons, if_neg (Ne.symm hqk),
        lookupKey_cons, if_neg (Ne.symm hqk), ih]
    · by_cases hq : k2 = q
      · subst hq
        rw [updateEntry_cons, if_neg hk, lookupKey_cons, if_pos rfl,
          lookupKey_cons, if_pos rfl]
      · rw [updateEntry_cons, if_neg hk, lookupKey_cons, if_neg hq,
          lookupKey_cons, if_neg hq, ih]

theorem lookupKey_append {α : Type} (k : String) (l1 l2 : List (String × α)) :
    lookupKey k (l1 ++ l2) = (lookupKey k l1).or (lookupKey k l2) := by
  induction l1 with
  | nil => simp [lookupKey]
  | cons kv rest ih =>
    obtain ⟨k2, v2⟩ := kv
    by_cases hk : k2 = k <;> simp [lookupKey, hk, ih]

theorem lookupKey_not_hasKey {α : Type} {k : String} {l : List (String × α)}
    (h : ¬ hasKey k l) : lookupKey k l = none := by
  cases hl : lookupKey k l with
  | none => rfl
  | some u => exact absurd (by simp [hasKey, hl]) h

theorem lookupKey_setEntry_self {α : Type} (l : List (String × α))
    (k : String) (v : α) : lookupKey k (setEntry l k v) = some v := by
  unfold setEntry
  by_cases h : hasKey k l
  · simp only [if_pos h]
    obtain ⟨u, hu⟩ := Option.isSome_iff_exists.1 h
    exact lookupKey_updateEntry_self hu v
  · simp only [if_neg h, lookupKey_append, lookupKey_not_hasKey h]
    simp [lookupKey]

theorem lookupKey_setEntry_ne {α : Type} (l : List (String × α))
    {q k : String} (hqk : q ≠ k) (v : α) :
    lookupKey q (setEntry l k v) = lookupKey q l := by
  unfold setEntry
  by_cases h : hasKey k l
  · simp only [if_pos h]
    exact lookupKey_updateEntry_ne l hqk v
  · simp only [if_neg h, lookupKey_append]
    have : lookupKey q [(k, v)] = none := by
      simp [lookupKey, Ne.symm hqk]
    rw [this]
    cases lookupKey q l <;> rfl

theorem lookupKey_eraseKey_self {α : Type} (l : List (String × α))
    (k : String) : lookupKey k (eraseKey l k) = none := by
  induction l with
  | nil => simp [lookupKey, eraseKey]
  | cons kv rest ih =>
    obtain ⟨k2, v2⟩ := kv
    by_cases hk : k2 = k
    · subst hk
      simpa [eraseKey, List.filter_cons] using ih
    · simpa [eraseKey, List.filter_cons, hk, lookupKey] using ih

theorem lookupKey_eraseKey_ne {α : Type} (l : List (String × α))
    {q k : String} (hqk : q ≠ k) :
    lookupKey q (eraseKey l k) = lookupKey q l := by
  induction l with
  | nil => simp [lookupKey, eraseKey]
  | cons kv rest ih =>
    obtain ⟨k2, v2⟩ := kv
    by_cases hk : k2 = k
    · subst hk
      simpa [eraseKey, List.filter_cons, lookupKey, Ne.symm hqk] using ih
    · by_cases hq : k2 = q
      · subst hq
        simp [eraseKey, List.filter_cons, hk, lookupKey]
      · simpa [eraseKey, List.filter_cons, hk, hq, lookupKey] using ih

theorem keysOf_updateEntry {α : Type} (l : List (String × α)) (k : String)
    (v : α) : keysOf (updateEntry l k v) = keysOf l := by
  induction l with
  | nil => rfl
  | cons kv rest ih =>
    obtain ⟨k2, v2⟩ := kv
    simp only [updateEntry, keysOf, List.map_cons] at ih ⊢
    by_cases hk : k2 = k
    · subst hk
      simp [ih]
    · simp [hk, ih]

theorem keysOf_setEntry_nodup {α : Type} {l : List (String × α)}
    (h : (keysOf l).Nodup) (k : String) (v : α) :
    (keysOf (setEntry l k v)).Nodup := by
  unfold setEntry
  by_cases hk : hasKey k l
  · simpa [if_pos hk, keysOf_updateEntry] using h
  · have hmem : k ∉ keysOf l := by
      intro hm
      exact hk ((lookupKey_isSome k l).2 hm)
    have hkeys : keysOf (l ++ [(k, v)]) = keysOf l ++ [k] := by
      simp [keysOf]
    simp only [if_neg hk, hkeys]
    refine List.Nodup.append h (List.nodup_singleton k) ?_
    intro a ha hb
    simp only [List.mem_singleton] at hb
    subst hb
    exact hmem ha

theorem keysOf_eraseKey_nodup {α : Type} {l : List (String × α)}
    (h : (keysOf l).Nodup) (k : String) : (keysOf (eraseKey l k)).Nodup := by
  have hsub : (keysOf (eraseKey l k)).Sublist (keysOf l) :=
    List.Sublist.map Prod.fst (List.filter_sublist l)
  exact List.Nodup.sublist hsub h

/-- Helper for `jsSetDedup`: `seen` accumulates the elements already
emitted, so each element is kept at its first occurrence only. -/
def jsSetDedupAux (seen : List String) : List String → List String
  | [] => []
  | x :: xs =>
    if x ∈ seen then jsSetDedupAux seen xs
    else x :: jsSetDedupAux (x :: seen) xs

/-- `[...new Set(list)]` in JS: deduplicate keeping the first occurrence of
each element, preserving insertion order. -/
def jsSetDedup (l : List String) : List String := jsSetDedupAux [] l

theorem mem_jsSetDedupAux (a : String) :
    ∀ (l seen : List String),
      a ∈ jsSetDedupAux seen l ↔ a ∈ l ∧ a ∉ seen := by
  intro l
  induction l with
  | nil => intro seen; simp [jsSetDedupAux]
  | cons x xs ih =>
    intro seen
    by_cases hx : x ∈ seen
    · rw [jsSetDedupAux.eq_def]
      simp only [if_pos hx]
      rw [ih]
      constructor
      · rintro ⟨h1, h2⟩
        exact ⟨List.mem_cons_of_mem _ h1, h2⟩
      · rintro ⟨h1, h2⟩
        rcases List.mem_cons.1 h1 with rfl | h1
        · exact absurd hx h2
        · exact ⟨h1, h2⟩
    · rw [jsSetDedupAux.eq_def]
      simp only [if_neg hx]
      constructor
      · intro h
        rcases List.mem_cons.1 h with rfl | h
        · exact ⟨List.mem_cons_self _ _, hx⟩
        · obtain ⟨h1, h2⟩ := (ih (x :: seen)).1 h
          exact ⟨List.mem_cons_of_mem _ h1,
            fun hs => h2 (List.mem_cons_of_mem _ hs)⟩
      · rintro ⟨h1, h2⟩
        rcases List.mem_cons.1 h1 with rfl | h1
        · exact List.mem_cons_self _ _
        · by_cases hax : a = x
          · subst hax
            exact List.mem_cons_self _ _
          · refine List.mem_cons_of_mem _ ((ih (x :: seen)).2 ⟨h1, ?_⟩)
            intro hs
            rcases List.mem_cons.1 hs with h | hs
            · exact hax h
            · exact h2 hs

theorem nodup_jsSetDedupAux :
    ∀ (l seen : List String), (jsSetDedupAux seen l).Nodup := by
  intro l
  induction l with
  | nil => intro seen; simp [jsSetDedupAux]
  | cons x xs ih =>
    intro seen
    by_cases hx : x ∈ seen
    · rw [jsSetDedupAux.eq_def]
      simp only [if_pos hx]
      exact ih seen
    · rw [jsSetDedupAux.eq_def]
      simp only [if_neg hx]
      refine List.nodup_cons.2 ⟨?_, ih (x :: seen)⟩
      intro hmem
      exact ((mem_jsSetDedupAux x xs (x :: seen)).1 hmem).2
        (List.mem_cons_self _ _)

theorem mem_jsSetDedup (a : String) (l : List String) :
    a ∈ jsSetDedup l ↔ a ∈ l := by
  unfold jsSetDedup
  rw [mem_jsSetDedupAux]
  simp

theorem nodup_jsSetDedup (l : List String) : (jsSetDedup l).Nodup :=
  nodup_jsSetDedupAux l []

/-! ## Data model of the admin meeting services

Embeds the documents manipulated by `AdminMeetingControlService`
(`src/unnamed/part_000`) and `AdminMeetingClientSimpleService`
(`src/unnamed/part_001`); the two classes' bodies for the three actions are
line-for-line identical up to how the attendee's user record is looked up. -/

/-- One audit entry of the `adminActions` append-only list on a meeting.
The `timestamp: serverTimestamp()` sentinel carries no modelled content. -/
structure AdminMeetingAction where
  action : String
  meetingId : String
  adminId : String
  adminName : String
  affectedUsers : List String
  reason : Option String
deriving DecidableEq, Repr

/-- A `meetings` document (the fields the admin actions read or write). -/
structure Meeting where
  spaceId : Option String
  attendees : List String
  creatorId : String
  status : String
  endedBy : Option String
  adminActions : List AdminMeetingAction
deriving DecidableEq, Repr

/-- A `spaces` document (the fields the admin actions write). -/
structure Space where
  activeMeeting : Bool
  members : List String
  endedBy : Option String
deriving DecidableEq, Repr

/-- An element of a user's `pendingSpaces` array; `spaceId` is `none` when
the element is null/undefined or lacks the field (`p?.spaceId`). -/
structure PendingSpace where
  spaceId : Option String
deriving DecidableEq, Repr

/-- A `users` document (the dashboard fields the admin actions rewrite). -/
structure UserRec where
  pendingSpaces : List PendingSpace
  hiddenMeetings : List String
deriving DecidableEq, Repr

/-- The Firestore collections touched by the admin services. -/
structure Database where
  meetings : List (String × Meeting)
  spaces : List (String × Space)
  users : List (String × UserRec)
deriving DecidableEq, Repr

/-- The `{ success, message, affectedUsers }` value the admin actions
resolve with. -/
structure AdminResponse where
  success : Bool
  message : String
  affectedUsers : List String
deriving DecidableEq, Repr

/-- JS truthiness of a `string | undefined` value (`if (spaceId)`,
`spaceId ? … : …`): `undefined` and the empty string are falsy. -/
def optTruthy : Option String → Bool
  | none => false
  | some s => s ≠ ""

/-- Firestore `arrayUnion`: append the element unless an equal element is
already present. -/
def arrayUnion {α : Type} [DecidableEq α] (l : List α) (x : α) : List α :=
  if x ∈ l then l else l ++ [x]

/-- The per-user dashboard rewrite shared by all three admin actions:
`pendingSpaces` is filtered by `p?.spaceId !== spaceId` and the meeting's
`spaceId` is appended to `hiddenMeetings` when truthy
(`spaceId ? [...currentHiddenMeetings, spaceId] : currentHiddenMeetings`). -/
def dashboardRemoval (spaceId : Option String) (u : UserRec) : UserRec :=
  { u with
    pendingSpaces := u.pendingSpaces.filter (fun p => p.spaceId ≠ spaceId),
    hiddenMeetings :=
      match spaceId with
      | some s => if s = "" then u.hiddenMeetings else u.hiddenMeetings ++ [s]
      | none => u.hiddenMeetings }

/-- Outcome of one iteration of the per-user `for` loop. -/
inductive UserUpdateOutcome where
  | updated
  | failedUpdate
  | notFound
deriving DecidableEq, Repr

/-- Result of the per-user loop: the rewritten `users` collection, the
`affectedUsers` accumulator, and a trace with one entry per iterated id. -/
structure UserLoopResult where
  users : List (String × UserRec)
  affected : List String
  trace : List (String × UserUpdateOutcome)
deriving DecidableEq, Repr

/-- The `for (const userId of uniqueUserIds)` loop of `endMeetingForAllUsers`
and `deleteMeetingCompletely`: look the user up, rewrite the dashboard
fields, push to `affectedUsers`; any error inside one iteration is caught,
logged and skipped. `failing uid = true` injects a thrown error into that
user's `updateDoc`. -/
def processUsers (spaceId : Option String) (failing : String → Bool) :
    List String → List (String × UserRec) → UserLoopResult
  | [], users => ⟨users, [], []⟩
  | uid :: rest, users =>
    match lookupKey uid users with
    | none =>
      let r := processUsers spaceId failing rest users
      ⟨r.users, r.affected, (uid, .notFound) :: r.trace⟩
    | some u =>
      if failing uid then
        let r := processUsers spaceId failing rest users
        ⟨r.users, r.affected, (uid, .failedUpdate) :: r.trace⟩
      else
        let r := processUsers spaceId failing rest
          (updateEntry users uid (dashboardRemoval spaceId u))
        ⟨r.users, uid :: r.affected, (uid, .updated) :: r.trace⟩

/-- `AdminMeetingControlService.endMeetingForAllUsers` /
`AdminMeetingClientSimpleService.endMeetingForAllUsers`: mark the meeting
ended, clear the associated space when `spaceId` is truthy (a missing space
document makes `updateDoc` throw, caught by the outer handler after the
meeting update already happened), then run the per-user loop over
`[...new Set([...attendees, creatorId])]`. -/
def endMeetingForAllUsers (d : Database) (failing : String → Bool)
    (meetingId adminId adminName : String) (reason : Option String) :
    Database × AdminResponse × List (String × UserUpdateOutcome) :=
  match lookupKey meetingId d.meetings with
  | none => (d, ⟨false, "Meeting not found", []⟩, [])
  | some m =>
    let m2 : Meeting :=
      { m with
        status := "ended", endedBy := some adminId,
        adminActions := arrayUnion m.adminActions
          ⟨"end_meeting", meetingId, adminId, adminName, m.attendees, reason⟩ }
    let d1 : Database := { d with meetings := updateEntry d.meetings meetingId m2 }
    let spacePhase : Option Database :=
      if optTruthy m.spaceId then
        match lookupKey (m.spaceId.getD "") d1.spaces with
        | none => none
        | some sp =>
          some { d1 with
            spaces := updateEntry d1.spaces (m.spaceId.getD "")
              { sp with activeMeeting := false, members := [],
                        endedBy := some adminId } }
      else some d1
    match spacePhase with
    | none => (d1, ⟨false, "Failed to end meeting", []⟩, [])
    | some d2 =>
      let ids := jsSetDedup (m.attendees ++ [m.creatorId])
      let r := processUsers m.spaceId failing ids d2.users
      ({ d2 with users := r.users },
        ⟨true, "Meeting ended successfully.", r.affected⟩, r.trace)

/-- `deleteMeetingCompletely`: run the per-user loop first, then delete the
meeting document and, when `spaceId` is truthy, the space document. -/
def deleteMeetingCompletely (d : Database) (failing : String → Bool)
    (meetingId adminId adminName : String) (reason : Option String) :
    Database × AdminResponse × List (String × UserUpdateOutcome) :=
  match lookupKey meetingId d.meetings with
  | none => (d, ⟨false, "Meeting not found", []⟩, [])
  | some m =>
    let ids := jsSetDedup (m.attendees ++ [m.creatorId])
    let r := processUsers m.spaceId failing ids d.users
    let d1 : Database := { d with users := r.users }
    let d2 : Database := { d1 with meetings := eraseKey d1.meetings meetingId }
    let d3 : Database :=
      if optTruthy m.spaceId then
        { d2 with spaces := eraseKey d2.spaces (m.spaceId.getD "") }
      else d2
    (d3, ⟨true, "Meeting deleted completely.", r.affected⟩, r.trace)

/-- `removeAttendeeFromMeeting` (by attendee document id, as in
`AdminMeetingControlService`): filter the identifier out of the meeting's
`attendees`, record the audit entry, then rewrite only that attendee's
dashboard fields when the user document exists. The unused `reason`/admin
fields flow into the audit entry. -/
def removeAttendeeFromMeeting (d : Database)
    (meetingId attendeeId adminId adminName : String)
    (reason : Option String) : Database × Bool × String :=
  match lookupKey meetingId d.meetings with
  | none => (d, false, "Meeting not found")
  | some m =>
    let updatedAttendees := m.attendees.filter (fun e => e ≠ attendeeId)
    let m2 : Meeting :=
      { m with
        attendees := updatedAttendees,
        adminActions := arrayUnion m.adminActions
          ⟨"remove_attendee", meetingId, adminId, adminName, [attendeeId],
            reason⟩ }
    let d1 : Database := { d with meetings := updateEntry d.meetings meetingId m2 }
    match lookupKey attendeeId d1.users with
    | none => (d1, true, "Attendee removed from meeting successfully.")
    | some u =>
      ({ d1 with
          users := updateEntry d1.users attendeeId
            (dashboardRemoval m.spaceId u) },
        true, "Attendee removed from meeting successfully.")

/-! ## Behaviour of the per-user loop -/

theorem processUsers_trace_keys (sp : Option String) (f : String → Bool)
    (ids : List String) :
    ∀ users, (processUsers sp f ids users).trace.map Prod.fst = ids := by
  induction ids with
  | nil => intro users; rfl
  | cons uid rest ih =>
    intro users
    cases hlu : lookupKey uid users with
    | none => simp [processUsers, hlu, ih]
    | some u =>
      by_cases hf : f uid = true
      · simp [processUsers, hlu, hf, ih]
      · simp [processUsers, hlu, hf, ih]

theorem processUsers_frame (sp : Option String) (f : String → Bool)
    (ids : List String) :
    ∀ users u, u ∉ ids →
      lookupKey u (processUsers sp f ids users).users = lookupKey u users := by
  induction ids with
  | nil => intro users u _; rfl
  | cons uid rest ih =>
    intro users u hu
    have hur : u ∉ rest := fun h => hu (List.mem_cons_of_mem _ h)
    have huid : u ≠ uid := fun h => hu (h ▸ List.mem_cons_self _ _)
    cases hlu : lookupKey uid users with
    | none =>
      simp only [processUsers, hlu]
      exact ih users u hur
    | some urec =>
      by_cases hf : f uid = true
      · simp only [processUsers, hlu, hf, if_true]
        exact ih users u hur
      · simp only [processUsers, hlu, hf, if_false, Bool.false_eq_true]
        rw [ih _ u hur, lookupKey_updateEntry_ne _ huid]

theorem processUsers_updated (sp : Option String) (f : String → Bool)
    (ids : List String) :
    ∀ users u urec, ids.Nodup → u ∈ ids → f u = false →
      lookupKey u users = some urec →
      (u, UserUpdateOutcome.updated) ∈ (processUsers sp f ids users).trace ∧
      u ∈ (processUsers sp f ids users).affected ∧
      lookupKey u (processUsers sp f ids users).users =
        some (dashboardRemoval sp urec) := by
  induction ids with
  | nil => intro users u urec _ hu; simp at hu
  | cons uid rest ih =>
    intro users u urec hnd hu hf hluu
    rcases List.mem_cons.1 hu with he | hr
    · subst he
      have hnotr : u ∉ rest := (List.nodup_cons.1 hnd).1
      simp only [processUsers, hluu, hf, if_false, Bool.false_eq_true]
      refine ⟨List.mem_cons_self _ _, List.mem_cons_self _ _, ?_⟩
      rw [processUsers_frame sp f rest _ u hnotr]
      exact lookupKey_updateEntry_self hluu _
    · have hne : u ≠ uid := by
        intro he
        exact (List.nodup_cons.1 hnd).1 (he ▸ hr)
      have hndr : rest.Nodup := (List.nodup_cons.1 hnd).2
      cases hlu : lookupKey uid users with
      | none =>
        simp only [processUsers, hlu]
        obtain ⟨h1, h2, h3⟩ := ih users u urec hndr hr hf hluu
        exact ⟨List.mem_cons_of_mem _ h1, h2, h3⟩
      | some u2 =>
        by_cases hf2 : f uid = true
        · simp only [processUsers, hlu, hf2, if_true]
          obtain ⟨h1, h2, h3⟩ := ih users u urec hndr hr hf hluu
          exact ⟨List.mem_cons_of_mem _ h1, h2, h3⟩
        · simp only [processUsers, hlu, hf2, if_false, Bool.false_eq_true]
          have hluu2 :
              lookupKey u (updateEntry users uid (dashboardRemoval sp u2)) =
                some urec := by
            rw [lookupKey_updateEntry_ne _ hne]; exact hluu
          obtain ⟨h1, h2, h3⟩ := ih _ u urec hndr hr hf hluu2
          exact ⟨List.mem_cons_of_mem _ h1, List.mem_cons_of_mem _ h2, h3⟩

theorem processUsers_affected (sp : Option String) (f : String → Bool)
    (ids : List String) :
    ∀ users u, ids.Nodup → u ∈ (processUsers sp f ids users).affected →
      ∃ urec, lookupKey u (processUsers sp f ids users).users =
        some (dashboardRemoval sp urec) := by
  induction ids with
  | nil => intro users u _ hu; simp [processUsers] at hu
  | cons uid rest ih =>
    intro users u hnd hu
    have hndr : rest.Nodup := (List.nodup_cons.1 hnd).2
    cases hlu : lookupKey uid users with
    | none =>
      simp only [processUsers, hlu] at hu ⊢
      exact ih users u hndr hu
    | some u2 =>
      by_cases hf : f uid = true
      · simp only [processUsers, hlu, hf, if_true] at hu ⊢
        exact ih users u hndr hu
      · simp only [processUsers, hlu, hf, if_false, Bool.false_eq_true,
          List.mem_cons] at hu ⊢
        rcases hu with he | hr
        · subst he
          refine ⟨u2, ?_⟩
          rw [processUsers_frame sp f rest _ u (List.nodup_cons.1 hnd).1]
          exact lookupKey_updateEntry_self hlu _
        · exact ih _ u hndr hr

theorem endMeetingForAllUsers_run (d : Database) (failing : String → Bool)
    (meetingId adminId adminName : String) (reason : Option String)
    (m : Meeting) (hm : lookupKey meetingId d.meetings = some m)
    (hsp : optTruthy m.spaceId = true →
      (lookupKey (m.spaceId.getD "") d.spaces).isSome) :
    (endMeetingForAllUsers d failing meetingId adminId adminName reason).1.users =
      (processUsers m.spaceId failing
        (jsSetDedup (m.attendees ++ [m.creatorId])) d.users).users ∧
    (endMeetingForAllUsers d failing meetingId adminId adminName reason).2.1 =
      ⟨true, "Meeting ended successfully.",
        (processUsers m.spaceId failing
          (jsSetDedup (m.attendees ++ [m.creatorId])) d.users).affected⟩ ∧
    (endMeetingForAllUsers d failing meetingId adminId adminName reason).2.2 =
      (processUsers m.spaceId failing
        (jsSetDedup (m.attendees ++ [m.creatorId])) d.users).trace := by
  unfold endMeetingForAllUsers
  rw [hm]
  by_cases ht : optTruthy m.spaceId
  · obtain ⟨sp, hsp2⟩ := Option.isSome_iff_exists.1 (hsp ht)
    simp [ht, hsp2]
  · simp [ht]

theorem deleteMeetingCompletely_run (d : Database) (failing : String → Bool)
    (meetingId adminId adminName : String) (reason : Option String)
    (m : Meeting) (hm : lookupKey meetingId d.meetings = some m) :
    (deleteMeetingCompletely d failing meetingId adminId adminName reason).1.users =
      (processUsers m.spaceId failing
        (jsSetDedup (m.attendees ++ [m.creatorId])) d.users).users ∧
    (deleteMeetingCompletely d failing meetingId adminId adminName reason).1.meetings =
      eraseKey d.meetings meetingId ∧
    (deleteMeetingCompletely d failing meetingId adminId adminName reason).1.spaces =
      (if optTruthy m.spaceId then eraseKey d.spaces (m.spaceId.getD "")
        else d.spaces) ∧
    (deleteMeetingCompletely d failing meetingId adminId adminName reason).2.1 =
      ⟨true, "Meeting deleted completely.",
        (processUsers m.spaceId failing
          (jsSetDedup (m.attendees ++ [m.creatorId])) d.users).affected⟩ := by
  unfold deleteMeetingCompletely
  rw [hm]
  by_cases ht : optTruthy m.spaceId
  · simp [ht]
  · simp [ht]

/-! ## Claim C1 — `endMeetingForAllUsers` attempts one dashboard-removal
update per unique id and tolerates single-user failures -/

/-- C1: for a meeting with attendee list `A` and creator `c` (and, when the
meeting's `spaceId` is truthy, an existing space document, since the space
`updateDoc` would otherwise throw), `endMeetingForAllUsers` iterates exactly
once per unique id of `A ∪ {c}` (the trace keys are exactly
`[...new Set([...attendees, creatorId])]`, which is duplicate-free and
set-equal to `A ∪ {c}`); whatever set of per-user updates is forced to fail,
every non-failing user whose record exists still receives the dashboard
removal (`pendingSpaces` filter plus `hiddenMeetings` append) and lands in
`affectedUsers`; and the operation reports success. -/
theorem C1_end_meeting_per_user_updates (d : Database)
    (failing : String → Bool) (meetingId adminId adminName : String)
    (reason : Option String) (m : Meeting)
    (hm : lookupKey meetingId d.meetings = some m)
    (hsp : optTruthy m.spaceId = true →
      (lookupKey (m.spaceId.getD "") d.spaces).isSome) :
    ((endMeetingForAllUsers d failing meetingId adminId adminName
        reason).2.2.map Prod.fst =
      jsSetDedup (m.attendees ++ [m.creatorId])) ∧
    (jsSetDedup (m.attendees ++ [m.creatorId])).Nodup ∧
    (∀ u, u ∈ jsSetDedup (m.attendees ++ [m.creatorId]) ↔
      u ∈ m.attendees ∨ u = m.creatorId) ∧
    (∀ u urec, u ∈ jsSetDedup (m.attendees ++ [m.creatorId]) →
      failing u = false → lookupKey u d.users = some urec →
      (u, UserUpdateOutcome.updated) ∈
        (endMeetingForAllUsers d failing meetingId adminId adminName
          reason).2.2 ∧
      u ∈ (endMeetingForAllUsers d failing meetingId adminId adminName
          reason).2.1.affectedUsers ∧
      lookupKey u (endMeetingForAllUsers d failing meetingId adminId adminName
          reason).1.users = some (dashboardRemoval m.spaceId urec)) ∧
    (endMeetingForAllUsers d failing meetingId adminId adminName
        reason).2.1.success = true := by
  obtain ⟨hu, hr, htr⟩ :=
    endMeetingForAllUsers_run d failing meetingId adminId adminName reason m
      hm hsp
  refine ⟨?_, nodup_jsSetDedup _, ?_, ?_, ?_⟩
  · rw [htr, processUsers_trace_keys]
  · intro u
    rw [mem_jsSetDedup]
    simp
  · intro u urec hmem hf hlu
    obtain ⟨h1, h2, h3⟩ := processUsers_updated m.spaceId failing
      (jsSetDedup (m.attendees ++ [m.creatorId])) d.users u urec
      (nodup_jsSetDedup _) hmem hf hlu
    refine ⟨?_, ?_, ?_⟩
    · rw [htr]; exact h1
    · rw [hr]; exact h2
    · rw [hu]; exact h3
  · rw [hr]

/-! ## Claim C2 — `deleteMeetingCompletely` removes meeting and space and
hides the space for every affected user -/

/-- C2: for a meeting whose `spaceId` is present (a truthy Firestore
document id, hence non-empty), after `deleteMeetingCompletely` the meeting
document and the space document are both absent, and every id in the
returned `affectedUsers` (the users found and updated) has the space id in
its `hiddenMeetings` afterwards. -/
theorem C2_delete_meeting_completely (d : Database) (failing : String → Bool)
    (meetingId adminId adminName : String) (reason : Option String)
    (m : Meeting) (s : String) (hm : lookupKey meetingId d.meetings = some m)
    (hs : m.spaceId = some s) (hne : s ≠ "") :
    lookupKey meetingId
      (deleteMeetingCompletely d failing meetingId adminId adminName
        reason).1.meetings = none ∧
    lookupKey s
      (deleteMeetingCompletely d failing meetingId adminId adminName
        reason).1.spaces = none ∧
    ∀ u ∈ (deleteMeetingCompletely d failing meetingId adminId adminName
        reason).2.1.affectedUsers,
      ∃ urec, lookupKey u (deleteMeetingCompletely d failing meetingId adminId
        adminName reason).1.users = some urec ∧ s ∈ urec.hiddenMeetings := by
  obtain ⟨hu, hmeet, hspc, hresp⟩ :=
    deleteMeetingCompletely_run d failing meetingId adminId adminName reason m
      hm
  have htruthy : optTruthy m.spaceId = true := by
    rw [hs]; simpa [optTruthy] using hne
  refine ⟨?_, ?_, ?_⟩
  · rw [hmeet]; exact lookupKey_eraseKey_self _ _
  · rw [hspc, if_pos htruthy, hs]
    exact lookupKey_eraseKey_self _ _
  · intro u humem
    rw [hresp] at humem
    obtain ⟨urec, hurec⟩ := processUsers_affected m.spaceId failing
      (jsSetDedup (m.attendees ++ [m.creatorId])) d.users u
      (nodup_jsSetDedup _) humem
    refine ⟨dashboardRemoval m.spaceId urec, ?_, ?_⟩
    · rw [hu]; exact hurec
    · rw [hs]
      simp [dashboardRemoval, hne]

/-! ## Claim C5 — `removeAttendeeFromMeeting` removes one attendee and
leaves every other user's dashboard untouched -/

theorem filter_ne_toFinset (l : List String) (a : String) :
    (l.filter (fun e => e ≠ a)).toFinset = l.toFinset \ {a} := by
  ext x
  simp [List.mem_filter]

/-- C5: for a meeting and an identifier in its attendee list,
`removeAttendeeFromMeeting` leaves the stored attendee list set-equal to the
original minus that identifier (and free of it), rewrites only that
attendee's user record with the dashboard removal, leaves every other user's
record (hence its `pendingSpaces` and `hiddenMeetings`) unchanged, and
reports success. -/
theorem C5_remove_attendee_frame (d : Database)
    (meetingId attendeeId adminId adminName : String) (reason : Option String)
    (m : Meeting) (hm : lookupKey meetingId d.meetings = some m)
    (ha : attendeeId ∈ m.attendees) :
    (∃ m2, lookupKey meetingId
        (removeAttendeeFromMeeting d meetingId attendeeId adminId adminName
          reason).1.meetings = some m2 ∧
      m2.attendees.toFinset = m.attendees.toFinset \ {attendeeId} ∧
      attendeeId ∉ m2.attendees) ∧
    (∀ q, q ≠ attendeeId →
      lookupKey q (removeAttendeeFromMeeting d meetingId attendeeId adminId
        adminName reason).1.users = lookupKey q d.users) ∧
    (∀ u, lookupKey attendeeId d.users = some u →
      lookupKey attendeeId (removeAttendeeFromMeeting d meetingId attendeeId
        adminId adminName reason).1.users =
        some (dashboardRemoval m.spaceId u)) ∧
    (removeAttendeeFromMeeting d meetingId attendeeId adminId adminName
      reason).2.1 = true := by
  unfold removeAttendeeFromMeeting
  rw [hm]
  cases hlu : lookupKey attendeeId d.users with
  | none =>
    simp only [hlu]
    refine ⟨⟨_, lookupKey_updateEntry_self hm _, filter_ne_toFinset _ _, ?_⟩,
      fun _ _ => trivial, ?_, by trivial⟩
    · simp [List.mem_filter]
    · intro u hu
      exact absurd hu (by simp)
  | some u =>
    simp only [hlu]
    refine ⟨⟨_, lookupKey_updateEntry_self hm _, filter_ne_toFinset _ _, ?_⟩,
      ?_, ?_, by trivial⟩
    · simp [List.mem_filter]
    · intro q hq
      exact lookupKey_updateEntry_ne _ hq _
    · intro u2 hu2
      injection hu2 with hu2
      subst hu2
      exact lookupKey_updateEntry_self hlu _

/-! ## Concrete sample data for the witnesses -/

/-- A concrete meeting: duplicate attendee, creator not in the list. -/
def sampleMeeting : Meeting :=
  { spaceId := some "s1", attendees := ["u1", "u2", "u1"], creatorId := "u3",
    status := "active", endedBy := none, adminActions := [] }

/-- The space document associated with `sampleMeeting`. -/
def sampleSpace : Space :=
  { activeMeeting := true, members := ["u1", "u2"], endedBy := none }

/-- Sample user records. -/
def sampleUser1 : UserRec :=
  { pendingSpaces := [⟨some "s1"⟩], hiddenMeetings := [] }

def sampleUser2 : UserRec :=
  { pendingSpaces := [⟨some "s1"⟩, ⟨none⟩], hiddenMeetings := ["z"] }

def sampleUser3 : UserRec :=
  { pendingSpaces := [], hiddenMeetings := [] }

/-- A concrete database holding `sampleMeeting`, its space and three users. -/
def sampleDatabase : Database :=
  { meetings := [("m1", sampleMeeting)],
    spaces := [("s1", sampleSpace)],
    users := [("u1", sampleUser1), ("u2", sampleUser2), ("u3", sampleUser3)] }

/-- Failure injection used by the C1 witness: user `u1`'s update throws. -/
def sampleFailing : String → Bool := fun uid => uid == "u1"

/-- Witness for C1: at `sampleDatabase` with `u1`'s update forced to fail,
the hypotheses hold, `u2` is still updated and listed, and the operation
reports success. -/
theorem C1_witness :
    lookupKey "m1" sampleDatabase.meetings = some sampleMeeting ∧
    (("u2", UserUpdateOutcome.updated) ∈
        (endMeetingForAllUsers sampleDatabase sampleFailing "m1" "admin"
          "Admin" none).2.2 ∧
      "u2" ∈ (endMeetingForAllUsers sampleDatabase sampleFailing "m1" "admin"
          "Admin" none).2.1.affectedUsers ∧
      lookupKey "u2" (endMeetingForAllUsers sampleDatabase sampleFailing "m1"
          "admin" "Admin" none).1.users =
        some (dashboardRemoval sampleMeeting.spaceId sampleUser2)) ∧
    (endMeetingForAllUsers sampleDatabase sampleFailing "m1" "admin" "Admin"
        none).2.1.success = true := by
  have h := C1_end_meeting_per_user_updates sampleDatabase sampleFailing "m1"
    "admin" "Admin" none sampleMeeting (by decide) (fun _ => by decide)
  exact ⟨by decide,
    h.2.2.2.1 "u2" _ (by decide) (by decide) (by decide),
    h.2.2.2.2⟩

/-- Witness for C2: deleting `sampleMeeting` leaves meeting `m1` and space
`s1` absent, and every affected user's record now hides `s1`. -/
theorem C2_witness :
    lookupKey "m1" sampleDatabase.meetings = some sampleMeeting ∧
    sampleMeeting.spaceId = some "s1" ∧
    (lookupKey "m1" (deleteMeetingCompletely sampleDatabase (fun _ => false)
        "m1" "admin" "Admin" none).1.meetings = none ∧
      lookupKey "s1" (deleteMeetingCompletely sampleDatabase (fun _ => false)
        "m1" "admin" "Admin" none).1.spaces = none ∧
      ∀ u ∈ (deleteMeetingCompletely sampleDatabase (fun _ => false) "m1"
          "admin" "Admin" none).2.1.affectedUsers,
        ∃ urec, lookupKey u (deleteMeetingCompletely sampleDatabase
          (fun _ => false) "m1" "admin" "Admin" none).1.users = some urec ∧
          "s1" ∈ urec.hiddenMeetings) := by
  refine ⟨by decide, by decide, ?_⟩
  exact C2_delete_meeting_completely sampleDatabase (fun _ => false) "m1"
    "admin" "Admin" none sampleMeeting "s1" (by decide) (by decide) (by decide)

/-- Witness for C5: removing attendee `u1` from `sampleMeeting` leaves the
attendee list set-equal to the original minus `u1`, and `u2`'s and `u3`'s
records untouched. -/
theorem C5_witness :
    lookupKey "m1" sampleDatabase.meetings = some sampleMeeting ∧
    "u1" ∈ sampleMeeting.attendees ∧
    ((∀ q, q ≠ "u1" →
        lookupKey q (removeAttendeeFromMeeting sampleDatabase "m1" "u1"
          "admin" "Admin" none).1.users = lookupKey q sampleDatabase.users) ∧
      (removeAttendeeFromMeeting sampleDatabase "m1" "u1" "admin" "Admin"
        none).2.1 = true) := by
  have h := C5_remove_attendee_frame sampleDatabase "m1" "u1" "admin" "Admin"
    none sampleMeeting (by decide) (by decide)
  exact ⟨by decide, by decide, h.2.1, h.2.2.2⟩

/-! ## The WebRTC mesh room manager (`src/src/lib/webrtc-mesh.ts`)

`WebRTCMeshManager` keeps two JS `Map`s (`connections`, `participants`)
keyed by remote participant id, allocates one `RTCPeerConnection` per
detected participant, writes offer/candidate documents to the room's
subcollections and subscribes snapshot watchers for answers. Peer
connections and media streams are modelled by identity: each allocated
peer connection gets a fresh numeric id, and closing records that id in
`closedPCs`. Firestore writes are modelled by accumulating the written
`(from, to)`-tagged documents; a snapshot watcher is modelled by the set of
participant ids it was subscribed for, and snapshot delivery only happens
for a subscribed watcher. -/

/-- The inbound remote `MediaStream` a `ParticipantConnection` owns; only
its track count matters to the embedded properties. -/
structure MediaStreamM where
  tracks : Nat
deriving DecidableEq, Repr

/-- The `ParticipantConnection` interface: one peer connection (by id), the
shared local stream (by id), the owned remote stream, plus the
`currentRemoteDescription` and an application counter instrumenting
`setRemoteDescription` calls on this pair's peer connection. -/
structure ParticipantConnection where
  participantId : String
  peerConnection : Nat
  localStream : Nat
  remoteStream : MediaStreamM
  isConnected : Bool
  isInitiator : Bool
  remoteDesc : Option String
  applyCount : Nat
deriving DecidableEq, Repr

/-- The mutable state of one `WebRTCMeshManager` plus the signaling
documents it wrote and the watchers it subscribed. -/
structure MeshState where
  currentUserId : String
  localStream : Nat
  connections : List (String × ParticipantConnection)
  participants : List (String × String)
  nextPC : Nat
  closedPCs : List Nat
  offersWritten : List (String × String)
  candidatesWritten : List (String × String)
  answerWatchers : List String
  candidateWatchers : List String
  iceApplied : Nat
deriving DecidableEq, Repr

/-- Constructor plus `initialize()`: both maps start empty; the participant
snapshot watcher is implicit in the event interface below. -/
def initMesh (localStream : Nat) (me : String) : MeshState :=
  { currentUserId := me, localStream := localStream, connections := [],
    participants := [], nextPC := 0, closedPCs := [], offersWritten := [],
    candidatesWritten := [], answerWatchers := [], candidateWatchers := [],
    iceApplied := 0 }

/-- `listenForAnswer`: subscribe a snapshot watcher for answer documents
with `from == participantId` and `to == currentUserId`. -/
def listenForAnswer (pid : String) (s : MeshState) : MeshState :=
  { s with answerWatchers := s.answerWatchers ++ [pid] }

/-- `createOffer`: no-op when the connection is gone (`if (!connection)
return`); otherwise create/set the local description, write the offer
document tagged `(from := currentUserId, to := participantId)` and
subscribe the answer watcher. -/
def createOffer (pid : String) (s : MeshState) : MeshState :=
  match lookupKey pid s.connections with
  | none => s
  | some _ =>
    listenForAnswer pid
      { s with offersWritten := s.offersWritten ++ [(s.currentUserId, pid)] }

/-- `handleParticipantJoined`: allocate a fresh peer connection and empty
remote stream, store the connection (overwriting any entry under the same
id, as `Map.set` does), record the participant, then `createOffer`. -/
def handleParticipantJoined (pid pdata : String) (s : MeshState) :
    MeshState :=
  let conn : ParticipantConnection :=
    { participantId := pid, peerConnection := s.nextPC,
      localStream := s.localStream, remoteStream := { tracks := 0 },
      isConnected := false, isInitiator := true, remoteDesc := none,
      applyCount := 0 }
  createOffer pid
    { s with connections := setEntry s.connections pid conn,
             participants := setEntry s.participants pid pdata,
             nextPC := s.nextPC + 1 }

/-- `handleParticipantLeft`: close the departed participant's peer
connection if present and drop both map entries. -/
def handleParticipantLeft (pid : String) (s : MeshState) : MeshState :=
  match lookupKey pid s.connections with
  | some c =>
    { s with closedPCs := s.closedPCs ++ [c.peerConnection],
             connections := eraseKey s.connections pid,
             participants := eraseKey s.participants pid }
  | none => { s with participants := eraseKey s.participants pid }

/-- `leave()`: close every stored peer connection, clear both maps (the
`isOnline:false` write and the participant-watcher unsubscribe touch no
modelled state). -/
def leaveRoom (s : MeshState) : MeshState :=
  { s with
    closedPCs := s.closedPCs ++ s.connections.map (fun kv => kv.2.peerConnection),
    connections := [], participants := [] }

/-- `sendIceCandidate`: append a candidate document tagged
`(from := currentUserId, to := participantId)` to the room's shared
candidates collection. -/
def sendIceCandidate (pid : String) (s : MeshState) : MeshState :=
  { s with candidatesWritten := s.candidatesWritten ++ [(s.currentUserId, pid)] }

/-- `listenForIceCandidates`: subscribe a snapshot watcher for candidate
documents with `from == participantId` and `to == currentUserId`. Defined
in the source but never invoked by any code path of the class. -/
def listenForIceCandidates (pid : String) (s : MeshState) : MeshState :=
  { s with candidateWatchers := s.candidateWatchers ++ [pid] }

/-- Delivery of one answer snapshot (the document list matching
`from == pid`, `to == me`, newest first) to the answer watcher for `pid`.
A snapshot only arrives while the watcher is subscribed; the callback takes
`docs[0]`, applies it via `setRemoteDescription` only when the connection
exists and `currentRemoteDescription` is unset, and unsubscribes after a
successful application. -/
def onAnswerSnapshot (pid : String) (docsList : List String) (s : MeshState) :
    MeshState :=
  if s.answerWatchers.contains pid then
    match docsList with
    | [] => s
    | ans :: _ =>
      match lookupKey pid s.connections with
      | none => s
      | some c =>
        if c.remoteDesc = none then
          let c2 := { c with remoteDesc := some ans,
                             applyCount := c.applyCount + 1 }
          { s with connections := setEntry s.connections pid c2,
                   answerWatchers := s.answerWatchers.erase pid }
        else s
  else s

/-- Delivery of one added candidate document `(from == pid, to == me)` to
the candidates watcher for `pid`: only a subscribed watcher receives it;
the callback applies the candidate via `addIceCandidate` when the
connection exists. -/
def onCandidateSnapshotAdded (pid : String) (s : MeshState) : MeshState :=
  if s.candidateWatchers.contains pid then
    match lookupKey pid s.connections with
    | none => s
    | some _ => { s with iceApplied := s.iceApplied + 1 }
  else s

/-- `getRemoteStreams()`: remote streams of all stored connections that
already carry at least one track. -/
def getRemoteStreams (s : MeshState) : List MediaStreamM :=
  ((s.connections.map (fun kv => kv.2)).map (fun c => c.remoteStream)).filter
    (fun st => st.tracks > 0)

/-- `getParticipantCount()`. -/
def getParticipantCount (s : MeshState) : Nat := s.connections.length

/-- `isParticipantConnected(participantId)`. -/
def isParticipantConnected (pid : String) (s : MeshState) : Bool :=
  match lookupKey pid s.connections with
  | some c => c.isConnected
  | none => false

/-- The externally driven events of one manager: participant snapshot
changes (`added` is ignored for the local user), browser peer-connection
events (`onicecandidate`, `ontrack`, `onconnectionstatechange`, which only
fire for a live stored connection), answer/candidate snapshot deliveries,
and the explicit `leave()` call. -/
inductive MeshEvent where
  | joined (pid pdata : String)
  | leftEv (pid : String)
  | iceFromPC (pid : String)
  | trackEv (pid : String) (n : Nat)
  | connState (pid : String) (ok : Bool)
  | answerSnap (pid : String) (docsList : List String)
  | candidateSnap (pid : String)
  | leaveEv
deriving DecidableEq, Repr

/-- One event step of the manager. -/
def applyEvent (s : MeshState) (e : MeshEvent) : MeshState :=
  match e with
  | .joined pid pdata =>
    if pid = s.currentUserId then s else handleParticipantJoined pid pdata s
  | .leftEv pid => handleParticipantLeft pid s
  | .iceFromPC pid =>
    match lookupKey pid s.connections with
    | some _ => sendIceCandidate pid s
    | none => s
  | .trackEv pid n =>
    match lookupKey pid s.connections with
    | some c =>
      let c2 := { c with remoteStream := { tracks := c.remoteStream.tracks + n } }
      { s with connections := setEntry s.connections pid c2 }
    | none => s
  | .connState pid ok =>
    match lookupKey pid s.connections with
    | some c =>
      let c2 := { c with isConnected := ok }
      { s with connections := setEntry s.connections pid c2 }
    | none => s
  | .answerSnap pid docsList => onAnswerSnapshot pid docsList s
  | .candidateSnap pid => onCandidateSnapshotAdded pid s
  | .leaveEv => leaveRoom s

/-- Run a manager for user `me` over an event sequence from a fresh room. -/
def runMesh (me : String) (events : List MeshEvent) : MeshState :=
  events.foldl applyEvent (initMesh 0 me)

/-! ## State invariants of the mesh manager -/

/-- The peer-connection ids stored in a connections map, in order. -/
def pcsOf (l : List (String × ParticipantConnection)) : List Nat :=
  l.map (fun kv => kv.2.peerConnection)

theorem keysOf_cons {α : Type} (kv : String × α) (l : List (String × α)) :
    keysOf (kv :: l) = kv.1 :: keysOf l := rfl

theorem pcsOf_cons (kv : String × ParticipantConnection)
    (l : List (String × ParticipantConnection)) :
    pcsOf (kv :: l) = kv.2.peerConnection :: pcsOf l := rfl

theorem mem_updateEntry {α : Type} {b : String × α} {l : List (String × α)}
    {k : String} {v : α} (h : b ∈ updateEntry l k v) :
    b = (k, v) ∨ b ∈ l := by
  induction l with
  | nil => simp [updateEntry] at h
  | cons kv rest ih =>
    obtain ⟨k2, v2⟩ := kv
    rw [updateEntry_cons] at h
    rcases List.mem_cons.1 h with he | hr
    · by_cases hk : k2 = k
      · rw [if_pos hk] at he
        exact Or.inl he
      · rw [if_neg hk] at he
        exact Or.inr (he ▸ List.mem_cons_self _ _)
    · rcases ih hr with he | hm
      · exact Or.inl he
      · exact Or.inr (List.mem_cons_of_mem _ hm)

theorem mem_setEntry {α : Type} {b : String × α} {l : List (String × α)}
    {k : String} {v : α} (h : b ∈ setEntry l k v) :
    b = (k, v) ∨ b ∈ l := by
  unfold setEntry at h
  split at h
  · exact mem_updateEntry h
  · rcases List.mem_append.1 h with hm | hm
    · exact Or.inr hm
    · exact Or.inl (by simpa using hm)

theorem mem_eraseKey {α : Type} {b : String × α} {l : List (String × α)}
    {k : String} (h : b ∈ eraseKey l k) : b ∈ l ∧ b.1 ≠ k := by
  unfold eraseKey at h
  have := List.mem_filter.1 h
  exact ⟨this.1, by simpa using this.2⟩

theorem updateEntry_eq_of_not_mem {α : Type} {l : List (String × α)}
    {k : String} (h : k ∉ keysOf l) (v : α) : updateEntry l k v = l := by
  induction l with
  | nil => rfl
  | cons kv rest ih =>
    obtain ⟨k2, v2⟩ := kv
    rw [keysOf_cons, List.mem_cons] at h
    push_neg at h
    rw [updateEntry_cons, if_neg (fun he => h.1 he.symm), ih h.2]

theorem pcsOf_updateEntry_fresh {l : List (String × ParticipantConnection)}
    {k : String} {conn : ParticipantConnection} {n : Nat}
    (hkeys : (keysOf l).Nodup) (hpcs : (pcsOf l).Nodup)
    (hlt : ∀ kv ∈ l, kv.2.peerConnection < n)
    (hc : conn.peerConnection = n) :
    (pcsOf (updateEntry l k conn)).Nodup := by
  induction l with
  | nil => simp [pcsOf, updateEntry]
  | cons kv rest ih =>
    obtain ⟨k2, v2⟩ := kv
    rw [updateEntry_cons]
    rw [keysOf_cons] at hkeys
    rw [pcsOf_cons] at hpcs
    by_cases hk : k2 = k
    · rw [if_pos hk]
      have hknotin : k ∉ keysOf rest := hk ▸ (List.nodup_cons.1 hkeys).1
      rw [updateEntry_eq_of_not_mem hknotin, pcsOf_cons]
      refine List.nodup_cons.2 ⟨?_, (List.nodup_cons.1 hpcs).2⟩
      intro hmem
      obtain ⟨kv2, hkv2, hpc⟩ := List.mem_map.1 hmem
      have h1 := hlt kv2 (List.mem_cons_of_mem _ hkv2)
      have h2 : (k, conn).2.peerConnection = n := hc
      omega
    · rw [if_neg hk, pcsOf_cons]
      refine List.nodup_cons.2 ⟨?_, ih (List.nodup_cons.1 hkeys).2
        (List.nodup_cons.1 hpcs).2
        (fun kv2 h2 => hlt kv2 (List.mem_cons_of_mem _ h2))⟩
      intro hmem
      obtain ⟨kv2, hkv2, hpc⟩ := List.mem_map.1 hmem
      rcases mem_updateEntry hkv2 with he | hm
      · have hv2 : v2.peerConnection < n := hlt (k2, v2) (List.mem_cons_self _ _)
        rw [he] at hpc
        simp only at hpc
        omega
      · exact (List.nodup_cons.1 hpcs).1 (hpc ▸ List.mem_map_of_mem _ hm)

theorem pcsOf_setEntry_fresh {l : List (String × ParticipantConnection)}
    {k : String} {conn : ParticipantConnection} {n : Nat}
    (hkeys : (keysOf l).Nodup) (hpcs : (pcsOf l).Nodup)
    (hlt : ∀ kv ∈ l, kv.2.peerConnection < n)
    (hc : conn.peerConnection = n) :
    (pcsOf (setEntry l k conn)).Nodup := by
  unfold setEntry
  split
  · exact pcsOf_updateEntry_fresh hkeys hpcs hlt hc
  · have : pcsOf (l ++ [(k, conn)]) = pcsOf l ++ [conn.peerConnection] := by
      simp [pcsOf]
    rw [this]
    refine List.Nodup.append hpcs (List.nodup_singleton _) ?_
    intro a ha hb
    simp only [List.mem_singleton] at hb
    obtain ⟨kv2, hkv2, hpc⟩ := List.mem_map.1 ha
    have h1 := hlt kv2 hkv2
    have h2 : (k, conn).2.peerConnection = n := hc
    omega

theorem pcsOf_updateEntry_same {l : List (String × ParticipantConnection)}
    {k : String} {v c : ParticipantConnection}
    (hkeys : (keysOf l).Nodup) (hl : lookupKey k l = some c)
    (hpc : v.peerConnection = c.peerConnection) :
    pcsOf (updateEntry l k v) = pcsOf l := by
  induction l with
  | nil => rfl
  | cons kv rest ih =>
    obtain ⟨k2, v2⟩ := kv
    rw [keysOf_cons] at hkeys
    rw [lookupKey_cons] at hl
    by_cases hk : k2 = k
    · rw [if_pos hk] at hl
      injection hl with hl
      subst hl
      have hknotin : k ∉ keysOf rest := hk ▸ (List.nodup_cons.1 hkeys).1
      rw [updateEntry_cons, if_pos hk, updateEntry_eq_of_not_mem hknotin,
        pcsOf_cons, pcsOf_cons, hpc]
    · rw [if_neg hk] at hl
      rw [updateEntry_cons, if_neg hk, pcsOf_cons, pcsOf_cons,
        ih (List.nodup_cons.1 hkeys).2 hl]

theorem pcsOf_eraseKey_sublist (l : List (String × ParticipantConnection))
    (k : String) : (pcsOf (eraseKey l k)).Sublist (pcsOf l) :=
  List.Sublist.map _ (List.filter_sublist l)

/-- The frame-relevant invariant of a mesh manager state: duplicate-free
connection keys, pairwise-distinct peer-connection ids (each
`RTCPeerConnection` is a distinct object), and no stored connection already
closed. -/
def goodState (s : MeshState) : Prop :=
  (keysOf s.connections).Nodup ∧ (pcsOf s.connections).Nodup ∧
  ∀ kv ∈ s.connections, kv.2.peerConnection ∉ s.closedPCs

instance (s : MeshState) : Decidable (goodState s) := by
  unfold goodState
  infer_instance

/-- `goodState` plus freshness bounds on the peer-connection counter, used
to push the invariant through every event. -/
def freshState (s : MeshState) : Prop :=
  goodState s ∧ (∀ kv ∈ s.connections, kv.2.peerConnection < s.nextPC) ∧
  ∀ pc ∈ s.closedPCs, pc < s.nextPC

theorem freshState_init (ls : Nat) (me : String) :
    freshState (initMesh ls me) := by
  refine ⟨⟨?_, ?_, ?_⟩, ?_, ?_⟩ <;> simp [initMesh, keysOf, pcsOf]

theorem freshState_createOffer (pid : String) (s : MeshState) :
    freshState (createOffer pid s) ↔ freshState s := by
  unfold createOffer listenForAnswer
  cases lookupKey pid s.connections <;> exact Iff.rfl

theorem invariants_setEntry_same {s : MeshState} {pid : String}
    {c c2 : ParticipantConnection}
    (hkeys : (keysOf s.connections).Nodup)
    (hpcs : (pcsOf s.connections).Nodup)
    (hclosed : ∀ kv ∈ s.connections, kv.2.peerConnection ∉ s.closedPCs)
    (hltc : ∀ kv ∈ s.connections, kv.2.peerConnection < s.nextPC)
    (hlu : lookupKey pid s.connections = some c)
    (hpc : c2.peerConnection = c.peerConnection) :
    (keysOf (setEntry s.connections pid c2)).Nodup ∧
    (pcsOf (setEntry s.connections pid c2)).Nodup ∧
    (∀ kv ∈ setEntry s.connections pid c2,
      kv.2.peerConnection ∉ s.closedPCs) ∧
    (∀ kv ∈ setEntry s.connections pid c2,
      kv.2.peerConnection < s.nextPC) := by
  have hhas : hasKey pid s.connections = true := by simp [hasKey, hlu]
  have hset : setEntry s.connections pid c2 =
      updateEntry s.connections pid c2 := by
    unfold setEntry
    rw [hhas]
    rfl
  refine ⟨?_, ?_, ?_, ?_⟩
  · rw [hset, keysOf_updateEntry]
    exact hkeys
  · rw [hset, pcsOf_updateEntry_same hkeys hlu hpc]
    exact hpcs
  · intro kv hkv
    rcases mem_setEntry hkv with he | hm
    · rw [he]
      show c2.peerConnection ∉ s.closedPCs
      rw [hpc]
      exact hclosed (pid, c) (lookupKey_mem hlu)
    · exact hclosed kv hm
  · intro kv hkv
    rcases mem_setEntry hkv with he | hm
    · rw [he]
      show c2.peerConnection < s.nextPC
      rw [hpc]
      exact hltc (pid, c) (lookupKey_mem hlu)
    · exact hltc kv hm

theorem freshState_applyEvent (s : MeshState) (e : MeshEvent)
    (h : freshState s) : freshState (applyEvent s e) := by
  obtain ⟨⟨hkeys, hpcs, hclosed⟩, hltc, hltz⟩ := h
  cases e with
  | joined pid pdata =>
    by_cases hme : pid = s.currentUserId
    · simp only [applyEvent, if_pos hme]
      exact ⟨⟨hkeys, hpcs, hclosed⟩, hltc, hltz⟩
    · simp only [applyEvent, if_neg hme]
      unfold handleParticipantJoined
      rw [freshState_createOffer]
      refine ⟨⟨?_, ?_, ?_⟩, ?_, ?_⟩
      · exact keysOf_setEntry_nodup hkeys _ _
      · exact pcsOf_setEntry_fresh hkeys hpcs hltc rfl
      · intro kv hkv
        rcases mem_setEntry hkv with he | hm
        · rw [he]
          intro hmem
          exact absurd (hltz _ hmem) (lt_irrefl _)
        · exact hclosed kv hm
      · intro kv hkv
        rcases mem_setEntry hkv with he | hm
        · rw [he]
          exact Nat.lt_succ_self _
        · exact Nat.lt_succ_of_lt (hltc kv hm)
      · intro pc hpc
        exact Nat.lt_succ_of_lt (hltz pc hpc)
  | leftEv pid =>
    simp only [applyEvent]
    unfold handleParticipantLeft
    cases hlu : lookupKey pid s.connections with
    | none => exact ⟨⟨hkeys, hpcs, hclosed⟩, hltc, hltz⟩
    | some c =>
      refine ⟨⟨keysOf_eraseKey_nodup hkeys _,
        List.Nodup.sublist (pcsOf_eraseKey_sublist _ _) hpcs, ?_⟩, ?_, ?_⟩
      · intro kv hkv
        obtain ⟨hkv1, hkv2⟩ := mem_eraseKey hkv
        intro hmem
        rcases List.mem_append.1 hmem with hm | hm
        · exact hclosed kv hkv1 hm
        · simp only [List.mem_singleton] at hm
          have hpidc : (pid, c) ∈ s.connections := lookupKey_mem hlu
          have hpair : s.connections.Pairwise
              (fun a b => a.2.peerConnection ≠ b.2.peerConnection) :=
            List.pairwise_map.1 hpcs
          have hne : kv ≠ (pid, c) := fun he => hkv2 (by rw [he])
          exact List.Pairwise.forall (fun _ _ hab => Ne.symm hab) hpair
            hkv1 hpidc hne hm
      · intro kv hkv
        exact hltc kv (mem_eraseKey hkv).1
      · intro pc hpc
        rcases List.mem_append.1 hpc with hm | hm
        · exact hltz pc hm
        · simp only [List.mem_singleton] at hm
          subst hm
          exact hltc (pid, c) (lookupKey_mem hlu)
  | iceFromPC pid =>
    cases hlu : lookupKey pid s.connections with
    | none =>
      simp only [applyEvent, hlu]
      exact ⟨⟨hkeys, hpcs, hclosed⟩, hltc, hltz⟩
    | some c =>
      simp only [applyEvent, hlu]
      exact ⟨⟨hkeys, hpcs, hclosed⟩, hltc, hltz⟩
  | trackEv pid n =>
    cases hlu : lookupKey pid s.connections with
    | none =>
      simp only [applyEvent, hlu]
      exact ⟨⟨hkeys, hpcs, hclosed⟩, hltc, hltz⟩
    | some c =>
      simp only [applyEvent, hlu]
      obtain ⟨h1, h2, h3, h4⟩ :=
        @invariants_setEntry_same s pid c
          { c with remoteStream := { tracks := c.remoteStream.tracks + n } }
          hkeys hpcs hclosed hltc hlu rfl
      exact ⟨⟨h1, h2, h3⟩, h4, hltz⟩
  | connState pid ok =>
    cases hlu : lookupKey pid s.connections with
    | none =>
      simp only [applyEvent, hlu]
      exact ⟨⟨hkeys, hpcs, hclosed⟩, hltc, hltz⟩
    | some c =>
      simp only [applyEvent, hlu]
      obtain ⟨h1, h2, h3, h4⟩ :=
        @invariants_setEntry_same s pid c { c with isConnected := ok }
          hkeys hpcs hclosed hltc hlu rfl
      exact ⟨⟨h1, h2, h3⟩, h4, hltz⟩
  | answerSnap pid docsList =>
    simp only [applyEvent]
    unfold onAnswerSnapshot
    by_cases hw : s.answerWatchers.contains pid = true
    · rw [if_pos hw]
      cases docsList with
      | nil => exact ⟨⟨hkeys, hpcs, hclosed⟩, hltc, hltz⟩
      | cons ans rest =>
        cases hlu : lookupKey pid s.connections with
        | none => exact ⟨⟨hkeys, hpcs, hclosed⟩, hltc, hltz⟩
        | some c =>
          dsimp only
          by_cases hrd : c.remoteDesc = none
          · rw [if_pos hrd]
            obtain ⟨h1, h2, h3, h4⟩ :=
              @invariants_setEntry_same s pid c
                { c with remoteDesc := some ans,
                         applyCount := c.applyCount + 1 }
                hkeys hpcs hclosed hltc hlu rfl
            exact ⟨⟨h1, h2, h3⟩, h4, hltz⟩
          · rw [if_neg hrd]
            exact ⟨⟨hkeys, hpcs, hclosed⟩, hltc, hltz⟩
    · rw [if_neg hw]
      exact ⟨⟨hkeys, hpcs, hclosed⟩, hltc, hltz⟩
  | candidateSnap pid =>
    simp only [applyEvent]
    unfold onCandidateSnapshotAdded
    by_cases hw : s.candidateWatchers.contains pid = true
    · rw [if_pos hw]
      cases hlu : lookupKey pid s.connections with
      | none => exact ⟨⟨hkeys, hpcs, hclosed⟩, hltc, hltz⟩
      | some c => exact ⟨⟨hkeys, hpcs, hclosed⟩, hltc, hltz⟩
    · rw [if_neg hw]
      exact ⟨⟨hkeys, hpcs, hclosed⟩, hltc, hltz⟩
  | leaveEv =>
    simp only [applyEvent]
    unfold leaveRoom
    refine ⟨⟨?_, ?_, ?_⟩, ?_, ?_⟩
    · simp [keysOf]
    · simp [pcsOf]
    · intro kv hkv
      simp at hkv
    · intro kv hkv
      simp at hkv
    · intro pc hpc
      rcases List.mem_append.1 hpc with hm | hm
      · exact hltz pc hm
      · obtain ⟨kv, hkv, hpcv⟩ := List.mem_map.1 hm
        exact hpcv ▸ hltc kv hkv

theorem freshState_runMesh (me : String) (events : List MeshEvent) :
    freshState (runMesh me events) := by
  unfold runMesh
  have hstep : ∀ (evs : List MeshEvent) (s : MeshState), freshState s →
      freshState (evs.foldl applyEvent s) := by
    intro evs
    induction evs with
    | nil => intro s hs; exact hs
    | cons e rest ih =>
      intro s hs
      exact ih _ (freshState_applyEvent s e hs)
  exact hstep events _ (freshState_init 0 me)

theorem goodState_runMesh (me : String) (events : List MeshEvent) :
    goodState (runMesh me events) := (freshState_runMesh me events).1

/-! ## Claim C4 — at most one PeerLink per pair -/

/-- C4: the connections map of a mesh manager holds at most one entry per
remote participant id at every reachable state (keys stay duplicate-free
over any event sequence), and in the two-participant scenario — both sides
observing both `added` snapshot changes, in either order — each side ends
with exactly one PeerLink whose key is the other participant, never two. -/
theorem C4_at_most_one_peer_link :
    (∀ me events, (keysOf (runMesh me events).connections).Nodup) ∧
    (∀ a b da db2 : String, a ≠ b →
      keysOf (runMesh a [.joined a da, .joined b db2]).connections = [b] ∧
      keysOf (runMesh a [.joined b db2, .joined a da]).connections = [b] ∧
      keysOf (runMesh b [.joined a da, .joined b db2]).connections = [a] ∧
      keysOf (runMesh b [.joined b db2, .joined a da]).connections = [a]) := by
  constructor
  · intro me events
    exact (goodState_runMesh me events).1
  · intro a b da db2 hab
    refine ⟨?_, ?_, ?_, ?_⟩ <;>
      simp [runMesh, applyEvent, handleParticipantJoined, createOffer,
        listenForAnswer, initMesh, setEntry, updateEntry, hasKey, lookupKey,
        keysOf, hab, Ne.symm hab]

/-- Witness for C4: the two-join scenario at concrete participants. -/
theorem C4_witness :
    ("alice" : String) ≠ "bob" ∧
    keysOf (runMesh "alice"
      [.joined "alice" "da", .joined "bob" "db"]).connections = ["bob"] :=
  ⟨by decide,
    (C4_at_most_one_peer_link.2 "alice" "bob" "da" "db" (by decide)).1⟩

/-! ## Claim C10 — `leave()` tears the session down -/

/-- C10: after `leave()` both maps are empty, every previously stored peer
connection id is recorded closed, `getParticipantCount()` returns `0` and
`getRemoteStreams()` returns the empty list; and on any state,
`isParticipantConnected` returns `false` (rather than failing) for an id
with no stored connection. -/
theorem C10_leave_clears_state (s : MeshState) :
    (leaveRoom s).connections = [] ∧
    (leaveRoom s).participants = [] ∧
    (∀ kv ∈ s.connections, kv.2.peerConnection ∈ (leaveRoom s).closedPCs) ∧
    getParticipantCount (leaveRoom s) = 0 ∧
    getRemoteStreams (leaveRoom s) = [] ∧
    (∀ pid, lookupKey pid s.connections = none →
      isParticipantConnected pid s = false) := by
  refine ⟨rfl, rfl, ?_, rfl, rfl, ?_⟩
  · intro kv hkv
    exact List.mem_append.2 (Or.inr (List.mem_map_of_mem _ hkv))
  · intro pid h
    unfold isParticipantConnected
    rw [h]

/-- The state of side `a` after participants `b` and `c` joined. -/
def meshTwoJoins : MeshState := runMesh "a" [.joined "b" "x", .joined "c" "y"]

/-- Witness for C10 at `meshTwoJoins`. -/
theorem C10_witness :
    getParticipantCount (leaveRoom meshTwoJoins) = 0 ∧
    getRemoteStreams (leaveRoom meshTwoJoins) = [] ∧
    isParticipantConnected "zz" meshTwoJoins = false := by
  have h := C10_leave_clears_state meshTwoJoins
  exact ⟨h.2.2.2.1, h.2.2.2.2.1, h.2.2.2.2.2 "zz" (by decide)⟩

/-! ## Claim C7 — participant-left closes exactly that pair's link -/

/-- C7: at any state satisfying the reachable-state invariant `goodState`
(which `goodState_runMesh` establishes for every run), a participant-left
event for `p` with stored connection `c` leaves the maps equal to the same
maps with the `p` entry erased, records exactly `c`'s peer connection as
closed — every other participant's entry is unchanged and its peer
connection stays unclosed — and afterwards no signaling happens for that
pair: `createOffer` writes nothing, a late answer snapshot is ignored, and
an `onicecandidate` event for the removed pair writes no candidate. -/
theorem C7_participant_left_frame (s : MeshState) (p : String)
    (c : ParticipantConnection) (hg : goodState s)
    (hc : lookupKey p s.connections = some c) :
    (handleParticipantLeft p s).connections = eraseKey s.connections p ∧
    (handleParticipantLeft p s).participants = eraseKey s.participants p ∧
    c.peerConnection ∈ (handleParticipantLeft p s).closedPCs ∧
    (∀ q, q ≠ p → lookupKey q (handleParticipantLeft p s).connections =
      lookupKey q s.connections) ∧
    (∀ q cq, q ≠ p → lookupKey q s.connections = some cq →
      cq.peerConnection ∉ (handleParticipantLeft p s).closedPCs) ∧
    createOffer p (handleParticipantLeft p s) = handleParticipantLeft p s ∧
    (∀ docsList, onAnswerSnapshot p docsList (handleParticipantLeft p s) =
      handleParticipantLeft p s) ∧
    applyEvent (handleParticipantLeft p s) (.iceFromPC p) =
      handleParticipantLeft p s := by
  obtain ⟨hkeys, hpcs, hclosed⟩ := hg
  have hconnafter :
      (handleParticipantLeft p s).connections = eraseKey s.connections p := by
    unfold handleParticipantLeft
    rw [hc]
  have hclosafter : (handleParticipantLeft p s).closedPCs =
      s.closedPCs ++ [c.peerConnection] := by
    unfold handleParticipantLeft
    rw [hc]
  have hpartafter : (handleParticipantLeft p s).participants =
      eraseKey s.participants p := by
    unfold handleParticipantLeft
    rw [hc]
  have hnone : lookupKey p (handleParticipantLeft p s).connections = none := by
    rw [hconnafter]
    exact lookupKey_eraseKey_self _ _
  refine ⟨hconnafter, hpartafter, ?_, ?_, ?_, ?_, ?_, ?_⟩
  · rw [hclosafter]
    exact List.mem_append.2 (Or.inr (List.mem_singleton.2 rfl))
  · intro q hq
    rw [hconnafter]
    exact lookupKey_eraseKey_ne _ hq
  · intro q cq hq hlu2
    rw [hclosafter]
    intro hmem
    rcases List.mem_append.1 hmem with hm | hm
    · exact hclosed (q, cq) (lookupKey_mem hlu2) hm
    · simp only [List.mem_singleton] at hm
      have hpidc : (p, c) ∈ s.connections := lookupKey_mem hc
      have hqc : (q, cq) ∈ s.connections := lookupKey_mem hlu2
      have hpair : s.connections.Pairwise
          (fun x y => x.2.peerConnection ≠ y.2.peerConnection) :=
        List.pairwise_map.1 hpcs
      have hne : (q, cq) ≠ (p, c) := fun he => hq (congrArg Prod.fst he)
      exact List.Pairwise.forall (fun _ _ hxy => Ne.symm hxy) hpair
        hqc hpidc hne hm
  · unfold createOffer
    rw [hnone]
  · intro docsList
    unfold onAnswerSnapshot
    split
    · cases docsList with
      | nil => rfl
      | cons hd tl =>
        rw [hnone]
    · rfl
  · simp only [applyEvent]
    rw [hnone]

/-- The stored connection of participant `b` inside `meshTwoJoins`. -/
def meshConnB : ParticipantConnection :=
  { participantId := "b", peerConnection := 0, localStream := 0,
    remoteStream := { tracks := 0 }, isConnected := false, isInitiator := true,
    remoteDesc := none, applyCount := 0 }

/-- Witness for C7 at `meshTwoJoins`: removing `b` keeps `c`'s entry and
closes exactly `b`'s peer connection. -/
theorem C7_witness :
    lookupKey "c" (handleParticipantLeft "b" meshTwoJoins).connections =
      lookupKey "c" meshTwoJoins.connections ∧
    meshConnB.peerConnection ∈
      (handleParticipantLeft "b" meshTwoJoins).closedPCs := by
  have h := C7_participant_left_frame meshTwoJoins "b" meshConnB (by decide)
    (by decide)
  exact ⟨h.2.2.2.1 "c" (by decide), h.2.2.1⟩

/-! ## Claim C6 — the answer is applied exactly once -/

theorem onAnswerSnapshot_inactive (pid : String) (docsList : List String)
    (s : MeshState) (h : s.answerWatchers.contains pid = false) :
    onAnswerSnapshot pid docsList s = s := by
  unfold onAnswerSnapshot
  rw [h]
  simp

theorem foldl_onAnswerSnapshot_inactive (pid : String) (s : MeshState)
    (h : s.answerWatchers.contains pid = false) (snaps : List (List String)) :
    snaps.foldl (fun st sn => onAnswerSnapshot pid sn st) s = s := by
  induction snaps with
  | nil => rfl
  | cons sn rest ih =>
    rw [List.foldl_cons, onAnswerSnapshot_inactive pid sn s h]
    exact ih

/-- The manager state of initiator `a` right after `handleParticipantJoined`
for `b`: one fresh connection, the offer `(a, b)` written, the answer
watcher for `b` subscribed. -/
def mkJoinedConn (b : String) : ParticipantConnection :=
  { participantId := b, peerConnection := 0, localStream := 0,
    remoteStream := { tracks := 0 }, isConnected := false, isInitiator := true,
    remoteDesc := none, applyCount := 0 }

def mkJoinedState (a b da : String) : MeshState :=
  { currentUserId := a, localStream := 0,
    connections := [(b, mkJoinedConn b)], participants := [(b, da)],
    nextPC := 1, closedPCs := [], offersWritten := [(a, b)],
    candidatesWritten := [], answerWatchers := [b], candidateWatchers := [],
    iceApplied := 0 }

/-- The same state after the answer `ans` was applied once. -/
def mkAnsweredConn (b ans : String) : ParticipantConnection :=
  { mkJoinedConn b with remoteDesc := some ans, applyCount := 1 }

def mkAnsweredState (a b da ans : String) : MeshState :=
  { mkJoinedState a b da with
    connections := [(b, mkAnsweredConn b ans)], answerWatchers := [] }

theorem runMesh_single_join (a b da : String) (hab : a ≠ b) :
    runMesh a [.joined b da] = mkJoinedState a b da := by
  simp [runMesh, applyEvent, handleParticipantJoined, createOffer,
    listenForAnswer, initMesh, setEntry, updateEntry, hasKey, lookupKey,
    mkJoinedState, mkJoinedConn, Ne.symm hab]

theorem onAnswerSnapshot_first (a b da ans : String) (tl : List String) :
    onAnswerSnapshot b (ans :: tl) (mkJoinedState a b da) =
      mkAnsweredState a b da ans := by
  simp [onAnswerSnapshot, mkJoinedState, mkJoinedConn, mkAnsweredState,
    mkAnsweredConn, setEntry, updateEntry, hasKey, lookupKey]

/-- C6: for the scripted exchange — the initiator `a` processes `b`'s join,
which writes the offer `(from = a, to = b)` and subscribes the answer
watcher, and the watcher then delivers any non-empty run of duplicate
snapshots of the same answer — `setRemoteDescription` runs exactly once
(`applyCount = 1`), the answer is stored, and the watcher is unsubscribed
after the first successful application. Moreover, on any state, a snapshot
is applied only when no remote description is currently set: with one
already present `onAnswerSnapshot` leaves the state untouched. -/
theorem C6_answer_applied_once (a b da ans : String) (hab : a ≠ b)
    (snaps : List (List String)) (hall : ∀ sn ∈ snaps, sn = [ans]) :
    (runMesh a [.joined b da]).offersWritten = [(a, b)] ∧
    (snaps ≠ [] →
      lookupKey b (snaps.foldl (fun st sn => onAnswerSnapshot b sn st)
          (runMesh a [.joined b da])).connections =
        some (mkAnsweredConn b ans) ∧
      (mkAnsweredConn b ans).applyCount = 1 ∧
      (mkAnsweredConn b ans).remoteDesc = some ans ∧
      (snaps.foldl (fun st sn => onAnswerSnapshot b sn st)
          (runMesh a [.joined b da])).answerWatchers.contains b = false) ∧
    (∀ (s : MeshState) (pid : String) (docsList : List String)
        (c : ParticipantConnection), lookupKey pid s.connections = some c →
      c.remoteDesc ≠ none → onAnswerSnapshot pid docsList s = s) := by
  refine ⟨?_, ?_, ?_⟩
  · rw [runMesh_single_join a b da hab]
    rfl
  · intro hne
    cases snaps with
    | nil => exact absurd rfl hne
    | cons sn rest =>
      have hsn : sn = [ans] := hall sn (List.mem_cons_self _ _)
      subst hsn
      rw [runMesh_single_join a b da hab, List.foldl_cons,
        onAnswerSnapshot_first a b da ans []]
      rw [foldl_onAnswerSnapshot_inactive b _ (by rfl) rest]
      refine ⟨?_, rfl, rfl, rfl⟩
      simp [mkAnsweredState, lookupKey]
  · intro s pid docsList c hlu hrd
    unfold onAnswerSnapshot
    split
    · cases docsList with
      | nil => rfl
      | cons hd tl =>
        rw [hlu]
        dsimp only
        rw [if_neg hrd]
    · rfl

/-- Witness for C6: two duplicate snapshots of the same answer still yield
`applyCount = 1`. -/
theorem C6_witness :
    lookupKey "b" (([["ans"], ["ans"]].foldl
        (fun st sn => onAnswerSnapshot "b" sn st)
        (runMesh "a" [.joined "b" "d"])).connections) =
      some (mkAnsweredConn "b" "ans") ∧
    (mkAnsweredConn "b" "ans").applyCount = 1 := by
  have h := C6_answer_applied_once "a" "b" "d" "ans" (by decide)
    [["ans"], ["ans"]] (by decide)
  obtain ⟨h1, h2, h3, h4⟩ := h.2.1 (by decide)
  exact ⟨h1, h2⟩

/-! ## Claim C3 — candidate records are written but no watcher ever applies
them -/

theorem onCandidateSnapshot_no_watchers (pid : String) (s : MeshState)
    (h : s.candidateWatchers = []) : onCandidateSnapshotAdded pid s = s := by
  unfold onCandidateSnapshotAdded
  rw [h]
  simp

theorem onAnswerSnapshot_candidate_fields (pid : String)
    (docsList : List String) (s : MeshState) :
    (onAnswerSnapshot pid docsList s).candidateWatchers =
      s.candidateWatchers ∧
    (onAnswerSnapshot pid docsList s).iceApplied = s.iceApplied := by
  unfold onAnswerSnapshot
  split
  · cases docsList with
    | nil => exact ⟨rfl, rfl⟩
    | cons hd tl =>
      cases lookupKey pid s.connections with
      | none => exact ⟨rfl, rfl⟩
      | some c =>
        dsimp only
        split
        · exact ⟨rfl, rfl⟩
        · exact ⟨rfl, rfl⟩
  · exact ⟨rfl, rfl⟩

theorem createOffer_candidate_fields (pid : String) (s : MeshState) :
    (createOffer pid s).candidateWatchers = s.candidateWatchers ∧
    (createOffer pid s).iceApplied = s.iceApplied := by
  unfold createOffer listenForAnswer
  cases lookupKey pid s.connections <;> exact ⟨rfl, rfl⟩

theorem applyEvent_candidate_fields (s : MeshState) (e : MeshEvent)
    (h1 : s.candidateWatchers = []) (h2 : s.iceApplied = 0) :
    (applyEvent s e).candidateWatchers = [] ∧
    (applyEvent s e).iceApplied = 0 := by
  cases e with
  | joined pid pdata =>
    by_cases hme : pid = s.currentUserId
    · simp only [applyEvent, if_pos hme]
      exact ⟨h1, h2⟩
    · simp only [applyEvent, if_neg hme, handleParticipantJoined]
      obtain ⟨hx, hy⟩ := createOffer_candidate_fields pid _
      rw [hx, hy]
      exact ⟨h1, h2⟩
  | leftEv pid =>
    simp only [applyEvent]
    unfold handleParticipantLeft
    cases lookupKey pid s.connections <;> exact ⟨h1, h2⟩
  | iceFromPC pid =>
    simp only [applyEvent]
    cases lookupKey pid s.connections <;> exact ⟨h1, h2⟩
  | trackEv pid n =>
    simp only [applyEvent]
    cases lookupKey pid s.connections <;> exact ⟨h1, h2⟩
  | connState pid ok =>
    simp only [applyEvent]
    cases lookupKey pid s.connections <;> exact ⟨h1, h2⟩
  | answerSnap pid docsList =>
    simp only [applyEvent]
    obtain ⟨hx, hy⟩ := onAnswerSnapshot_candidate_fields pid docsList s
    rw [hx, hy]
    exact ⟨h1, h2⟩
  | candidateSnap pid =>
    simp only [applyEvent]
    rw [onCandidateSnapshot_no_watchers pid s h1]
    exact ⟨h1, h2⟩
  | leaveEv =>
    simp only [applyEvent]
    exact ⟨h1, h2⟩

theorem runMesh_candidate_fields (me : String) (events : List MeshEvent) :
    (runMesh me events).candidateWatchers = [] ∧
    (runMesh me events).iceApplied = 0 := by
  unfold runMesh
  have hstep : ∀ (evs : List MeshEvent) (s : MeshState),
      s.candidateWatchers = [] → s.iceApplied = 0 →
      (evs.foldl applyEvent s).candidateWatchers = [] ∧
      (evs.foldl applyEvent s).iceApplied = 0 := by
    intro evs
    induction evs with
    | nil => intro s hx hy; exact ⟨hx, hy⟩
    | cons e rest ih =>
      intro s hx hy
      obtain ⟨hx2, hy2⟩ := applyEvent_candidate_fields s e hx hy
      exact ih _ hx2 hy2
  exact hstep events _ rfl rfl

/-- C3 (divergence): `listenForIceCandidates` exists in the class but no
code path ever invokes it, so after any event sequence no candidates
watcher is subscribed, `addIceCandidate` is never reached
(`iceApplied = 0`), and delivering a candidate snapshot is a no-op — while
`sendIceCandidate` does write the `(from, to)`-tagged record, shown on a
concrete trace where `b`'s pair produces a candidate. -/
theorem C3_candidates_written_never_applied :
    (∀ me events, (runMesh me events).candidateWatchers = [] ∧
      (runMesh me events).iceApplied = 0 ∧
      ∀ pid, onCandidateSnapshotAdded pid (runMesh me events) =
        runMesh me events) ∧
    (runMesh "a" [.joined "b" "d", .iceFromPC "b"]).candidatesWritten =
      [("a", "b")] := by
  constructor
  · intro me events
    obtain ⟨h1, h2⟩ := runMesh_candidate_fields me events
    exact ⟨h1, h2, fun pid => onCandidateSnapshot_no_watchers pid _ h1⟩
  · decide

/-! ## The call-join flow (`startOrJoinCall` in `src/unnamed/part_003`) -/

/-- A toast surfaced to the user (title plus the `destructive` variant). -/
structure ToastMsg where
  title : String
  destructive : Bool
deriving DecidableEq, Repr

/-- Observable outcome of one `startOrJoinCall` invocation: how many times
each room constructor was attempted, the toast shown, and `isInCall`. -/
structure CallAttemptResult where
  meshAttempts : Nat
  simpleAttempts : Nat
  toast : ToastMsg
  isInCall : Bool
deriving DecidableEq, Repr

/-- `startOrJoinCall`: guard on media/user, try `createMeshRoom`; only when
it throws (`meshOk = false`), try `createSimpleRoom` in the catch block;
when that throws too, show a destructive `Call failed` toast. `meshOk` and
`simpleOk` are oracles for whether the respective constructor resolves. -/
def startOrJoinCall (mediaReady meshOk simpleOk : Bool) : CallAttemptResult :=
  if !mediaReady then
    { meshAttempts := 0, simpleAttempts := 0,
      toast := { title := "Media not ready", destructive := true },
      isInCall := false }
  else if meshOk then
    { meshAttempts := 1, simpleAttempts := 0,
      toast := { title := "Joined meeting", destructive := false },
      isInCall := true }
  else if simpleOk then
    { meshAttempts := 1, simpleAttempts := 1,
      toast := { title := "Joined meeting (Simple Mode)", destructive := false },
      isInCall := true }
  else
    { meshAttempts := 1, simpleAttempts := 1,
      toast := { title := "Call failed", destructive := true },
      isInCall := false }

/-- C8: with media ready, the mesh constructor is attempted exactly once
(never retried); the simple constructor is attempted iff the mesh one
raised; each branch surfaces its own toast (`Joined meeting`,
`Joined meeting (Simple Mode)`, destructive `Call failed`), and the three
titles are pairwise distinct. -/
theorem C8_mesh_then_simple_fallback (meshOk simpleOk : Bool) :
    (startOrJoinCall true meshOk simpleOk).meshAttempts = 1 ∧
    ((startOrJoinCall true meshOk simpleOk).simpleAttempts = 1 ↔
      meshOk = false) ∧
    (meshOk = true →
      (startOrJoinCall true meshOk simpleOk).toast =
        ⟨"Joined meeting", false⟩ ∧
      (startOrJoinCall true meshOk simpleOk).isInCall = true) ∧
    (meshOk = false → simpleOk = true →
      (startOrJoinCall true meshOk simpleOk).toast =
        ⟨"Joined meeting (Simple Mode)", false⟩ ∧
      (startOrJoinCall true meshOk simpleOk).isInCall = true) ∧
    (meshOk = false → simpleOk = false →
      (startOrJoinCall true meshOk simpleOk).toast =
        ⟨"Call failed", true⟩ ∧
      (startOrJoinCall true meshOk simpleOk).isInCall = false) ∧
    (("Joined meeting" : String) ≠ "Joined meeting (Simple Mode)" ∧
      ("Joined meeting" : String) ≠ "Call failed" ∧
      ("Joined meeting (Simple Mode)" : String) ≠ "Call failed") := by
  cases meshOk <;> cases simpleOk <;> exact (by decide)

/-- Witness for C8: a mesh failure with a simple success yields the
`Simple Mode` toast with exactly one mesh attempt. -/
theorem C8_witness :
    (startOrJoinCall true false true).toast =
      ⟨"Joined meeting (Simple Mode)", false⟩ ∧
    (startOrJoinCall true false true).meshAttempts = 1 :=
  ⟨((C8_mesh_then_simple_fallback false true).2.2.2.1 rfl rfl).1,
    (C8_mesh_then_simple_fallback false true).1⟩

/-! ## Avatar keyboard movement (`handleKeyDown` / `isPositionValid` in
`src/unnamed/part_003`)

The map data (`map.json`) is not part of the sources, so `MapData` is a
parameter shaped like the Tiled export the code reads (`width`, `height`,
`layers` with `type`/`name`/`width`/`height`/`data`); the code's
`typeof`-checks on those fields always hold in this typed model.
`Math.floor(a / 32)` on integer pixel coordinates is `Int.fdiv a 32`. -/

def GRID_SIZE : Int := 32

def STEP : Int := GRID_SIZE

/-- One layer of the Tiled map. -/
structure TileLayer where
  layerType : String
  name : String
  width : Int
  height : Int
  data : List Int
deriving DecidableEq, Repr

/-- The Tiled map. -/
structure MapData where
  width : Int
  height : Int
  layers : List TileLayer
deriving DecidableEq, Repr

/-- A pixel position. -/
structure Pos where
  x : Int
  y : Int
deriving DecidableEq, Repr

/-- One iteration of `isPositionValid`'s layer loop: `true` when this layer
rejects the tile (only a `tilelayer` named `Tile Layer 8` is consulted;
out-of-bounds tiles and nonzero gids reject). -/
def layerBlocks (layer : TileLayer) (tileX tileY : Int) : Bool :=
  if layer.layerType = "tilelayer" ∧ layer.name = "Tile Layer 8" then
    if tileX < 0 ∨ tileY < 0 ∨ tileX ≥ layer.width ∨ tileY ≥ layer.height then
      true
    else
      let tileIndex := tileY * layer.width + tileX
      if 0 ≤ tileIndex ∧ tileIndex < layer.data.length then
        layer.data.getD tileIndex.toNat 0 ≠ 0
      else false
  else false

/-- `isPositionValid`: the avatar-center tile must not be rejected by any
collision layer. -/
def isPositionValid (m : MapData) (pos : Pos) : Bool :=
  let avatarCenterX := pos.x + GRID_SIZE / 2
  let avatarCenterY := pos.y + GRID_SIZE / 2
  let tileX := Int.fdiv avatarCenterX GRID_SIZE
  let tileY := Int.fdiv avatarCenterY GRID_SIZE
  !(m.layers.any (fun layer => layerBlocks layer tileX tileY))

/-- The arrow keys (`other` stands for every other key). -/
inductive ArrowKey where
  | up
  | down
  | left
  | right
  | other
deriving DecidableEq, Repr

/-- The `switch (e.key)` of `handleKeyDown`: the tentative new position,
clamped to `[0, mapSize - avatarSize]` on the moved axis
(`avatarSize = 48`). -/
def switchKey (m : MapData) (key : ArrowKey) (prev : Pos) : Pos :=
  match key with
  | .up => { prev with y := max 0 (prev.y - STEP) }
  | .down => { prev with y := min (m.height * GRID_SIZE - 48) (prev.y + STEP) }
  | .left => { prev with x := max 0 (prev.x - STEP) }
  | .right => { prev with x := min (m.width * GRID_SIZE - 48) (prev.x + STEP) }
  | .other => prev

/-- `handleKeyDown`: no-op in together-mode and for non-arrow keys;
otherwise the clamped step is taken — and written to the database — exactly
when it differs from the previous position and `isPositionValid` accepts
it. Returns the next in-memory position and the database write. -/
def handleKeyDown (m : MapData) (isTogetherMode : Bool) (key : ArrowKey)
    (prev : Pos) : Pos × Option Pos :=
  if isTogetherMode then (prev, none)
  else
    match key with
    | .other => (prev, none)
    | _ =>
      let newPos := switchKey m key prev
      if (newPos.x ≠ prev.x ∨ newPos.y ≠ prev.y) ∧
          isPositionValid m newPos then
        (newPos, some newPos)
      else (prev, none)

theorem handleKeyDown_arrow (m : MapData) (key : ArrowKey) (prev : Pos)
    (hk : key ≠ .other) :
    handleKeyDown m false key prev =
      (if ((switchKey m key prev).x ≠ prev.x ∨
          (switchKey m key prev).y ≠ prev.y) ∧
          isPositionValid m (switchKey m key prev) = true then
        (switchKey m key prev, some (switchKey m key prev))
      else (prev, none)) := by
  cases key with
  | other => exact absurd rfl hk
  | up => rfl
  | down => rfl
  | left => rfl
  | right => rfl

/-- A 13×13 map (416×416 px) whose `Tile Layer 8` collision layer is
entirely free. -/
def openLayer : TileLayer :=
  { layerType := "tilelayer", name := "Tile Layer 8", width := 13,
    height := 13, data := List.replicate 169 0 }

def openMap : MapData := { width := 13, height := 13, layers := [openLayer] }

set_option maxRecDepth 8000 in
/-- C9 counterexample: on `openMap`, starting from the component's initial
position `(GRID_SIZE * 10, GRID_SIZE * 10) = (320, 320)`, one ArrowDown
step reaches `(320, 352)` (a full 32 px step), and the next ArrowDown is
clamped to `min(13·32 − 48, 352 + 32) = 368` — the avatar moves 16 px, not
0 and not 32, and that position is stored and written to the database. So
a movement event need not keep the position or move it by exactly one grid
step. -/
theorem C9_counterexample :
    handleKeyDown openMap false .down ⟨320, 320⟩ =
      (⟨320, 352⟩, some ⟨320, 352⟩) ∧
    handleKeyDown openMap false .down ⟨320, 352⟩ =
      (⟨320, 368⟩, some ⟨320, 368⟩) ∧
    (368 - 352 : Int) ≠ 0 ∧ (368 - 352 : Int) ≠ 32 := by
  refine ⟨by decide, by decide, by decide, by decide⟩

/-- C9 amended: for every keyboard event (outside together-mode), either
the position stays put and nothing is written to the database, or the
avatar moves along exactly one axis to a position accepted by
`isPositionValid` (hence inside the collision layer's bounds and off its
nonzero tiles) and exactly that position is written; the moved coordinate
is the previous one ±32 px, or the clamp bound (`0`, or the map size in
pixels minus the 48 px avatar) when a full step would overshoot — so a
step is at most 32 px but can be shorter at a map edge. -/
theorem C9_amended_movement (m : MapData) (key : ArrowKey) (prev : Pos) :
    handleKeyDown m false key prev = (prev, none) ∨
    (∃ np, handleKeyDown m false key prev = (np, some np) ∧
      np ≠ prev ∧ isPositionValid m np = true ∧
      ((np.x = prev.x ∧
          (np.y = prev.y - 32 ∨ np.y = prev.y + 32 ∨ np.y = 0 ∨
            np.y = m.height * 32 - 48)) ∨
        (np.y = prev.y ∧
          (np.x = prev.x - 32 ∨ np.x = prev.x + 32 ∨ np.x = 0 ∨
            np.x = m.width * 32 - 48)))) := by
  have hmain : ∀ hk : key ≠ .other,
      ((switchKey m key prev).x = prev.x ∧
        ((switchKey m key prev).y = prev.y - 32 ∨
          (switchKey m key prev).y = prev.y + 32 ∨
          (switchKey m key prev).y = 0 ∨
          (switchKey m key prev).y = m.height * 32 - 48)) ∨
      ((switchKey m key prev).y = prev.y ∧
        ((switchKey m key prev).x = prev.x - 32 ∨
          (switchKey m key prev).x = prev.x + 32 ∨
          (switchKey m key prev).x = 0 ∨
          (switchKey m key prev).x = m.width * 32 - 48)) := by
    intro hk
    cases key with
    | other => exact absurd rfl hk
    | up =>
      left
      refine ⟨rfl, ?_⟩
      simp only [switchKey, STEP, GRID_SIZE]
      omega
    | down =>
      left
      refine ⟨rfl, ?_⟩
      simp only [switchKey, STEP, GRID_SIZE]
      omega
    | left =>
      right
      refine ⟨rfl, ?_⟩
      simp only [switchKey, STEP, GRID_SIZE]
      omega
    | right =>
      right
      refine ⟨rfl, ?_⟩
      simp only [switchKey, STEP, GRID_SIZE]
      omega
  by_cases hk : key = ArrowKey.other
  · subst hk
    exact Or.inl rfl
  · rw [handleKeyDown_arrow m key prev hk]
    by_cases hcond : ((switchKey m key prev).x ≠ prev.x ∨
        (switchKey m key prev).y ≠ prev.y) ∧
        isPositionValid m (switchKey m key prev) = true
    · rw [if_pos hcond]
      right
      refine ⟨switchKey m key prev, rfl, ?_, hcond.2, hmain hk⟩
      intro he
      rcases hcond.1 with h | h
      · exact h (congrArg Pos.x he)
      · exact h (congrArg Pos.y he)
    · rw [if_neg hcond]
      exact Or.inl rfl

end SyncroSpace
